import Mathlib

/-!
Verification of the mnemonist LRU cache (`src/lru-cache.js`).

The cache stores its doubly-linked recency list in flat arrays indexed by
slot numbers.  We embed the JavaScript state shallowly: the typed arrays
`forward`/`backward` become total functions `Nat → Nat` (every stored value
is a slot index `< capacity`, which always fits the chosen pointer width,
so no modular truncation can occur), the plain arrays `keys`/`values`
become `Nat → Option _` (with `none` standing for JavaScript `undefined`),
and the `Map` `items` becomes a function `K → Option Nat` updated
pointwise.  Methods that mutate `this` become functions from the cache
state to a new cache state.
-/

/-- Pointwise update of a `Nat`-indexed function; models one array write
`a[i] = v`. -/
def upd {α : Type} (f : Nat → α) (i : Nat) (v : α) : Nat → α :=
  fun j => if j = i then v else f j

/-- Models `Map.prototype.set(k, p)` on the key index. -/
def mapSet {K : Type} [DecidableEq K] (m : K → Option Nat) (k : K) (p : Nat) :
    K → Option Nat :=
  fun j => if j = k then some p else m j

/-- Models `Map.prototype.delete(k)` on the key index. -/
def mapDelete {K : Type} [DecidableEq K] (m : K → Option Nat) (k : K) :
    K → Option Nat :=
  fun j => if j = k then none else m j

/-- Models `Map.prototype.delete(x)` where `x` may be `undefined`
(deleting the key `undefined` from a map whose keys are all actual keys
is a no-op). -/
def mapDeleteO {K : Type} [DecidableEq K] (m : K → Option Nat) :
    Option K → K → Option Nat
  | none => m
  | some k => mapDelete m k

/-- State of `LRUCache` (`src/lru-cache.js`, constructor, lines 23-36):
`capacity`, the pointer arrays `forward`/`backward`, the plain arrays
`keys`/`values`, the key index `items`, and the counters `size`, `head`,
`tail` set by `clear()`. -/
structure LRUCache (K V : Type) where
  capacity : Nat
  forward : Nat → Nat
  backward : Nat → Nat
  keys : Nat → Option K
  values : Nat → Option V
  items : K → Option Nat
  size : Nat
  head : Nat
  tail : Nat

/-- A freshly constructed `LRUCache`: typed arrays are zero-initialised,
`keys`/`values` hold `undefined` everywhere, and `clear()` has set
`size = head = tail = 0` with an empty key index. -/
def LRUCache.new (K V : Type) (capacity : Nat) : LRUCache K V :=
  { capacity := capacity
    forward := fun _ => 0
    backward := fun _ => 0
    keys := fun _ => none
    values := fun _ => none
    items := fun _ => none
    size := 0
    head := 0
    tail := 0 }

/-- `LRUCache.prototype.clear` (lines 43-50): resets the counters and the
key index, leaving every array untouched. -/
def LRUCache.clear {K V : Type} (c : LRUCache K V) : LRUCache K V :=
  { c with size := 0, head := 0, tail := 0, items := fun _ => none }

/-- `LRUCache.prototype.splayOnTop` (lines 58-78): move the live slot
`pointer` to the head of the recency list.  Returns `this` unchanged when
the slot already is the head. -/
def LRUCache.splayOnTop {K V : Type} (c : LRUCache K V) (pointer : Nat) :
    LRUCache K V :=
  let oldHead := c.head
  if c.head = pointer then c
  else
    let c1 :=
      if c.tail = pointer then
        { c with tail := c.backward pointer }
      else
        { c with backward := upd c.backward (c.forward pointer) (c.backward pointer) }
    let c2 := { c1 with forward := upd c1.forward (c1.backward pointer) (c1.forward pointer) }
    { c2 with
      backward := upd c2.backward oldHead pointer
      head := pointer
      forward := upd c2.forward pointer oldHead }

/-- `LRUCache.prototype.set` (lines 87-127).  An existing key is splayed
on top and its value replaced; otherwise a slot is allocated (the next
unused slot while the cache is not full, else the evicted tail slot) and
linked in front when the cache holds more than one entry afterwards. -/
def LRUCache.set {K V : Type} [DecidableEq K] (c : LRUCache K V) (key : K)
    (value : V) : LRUCache K V :=
  match c.items key with
  | some existingPointer =>
    let c1 := c.splayOnTop existingPointer
    { c1 with values := upd c1.values existingPointer (some value) }
  | none =>
    let alloc : LRUCache K V × Nat :=
      if c.size < c.capacity then
        ({ c with size := c.size + 1 }, c.size)
      else
        ({ c with
            tail := c.backward c.tail
            items := mapDeleteO c.items (c.keys c.tail) }, c.tail)
    let c1 := alloc.1
    let pointer := alloc.2
    let c2 :=
      { c1 with
        items := mapSet c1.items key pointer
        keys := upd c1.keys pointer (some key)
        values := upd c1.values pointer (some value) }
    if c2.size > 1 then
      { c2 with
        head := pointer
        backward := upd c2.backward c2.head pointer
        forward := upd c2.forward pointer c2.head }
    else c2

/-- `LRUCache.prototype.has` (lines 135-137): pure membership test via the
key index. -/
def LRUCache.has {K V : Type} (c : LRUCache K V) (key : K) : Bool :=
  (c.items key).isSome

/-- `LRUCache.prototype.get` (lines 146-155): absent keys yield
`undefined` (`none`) and leave the state alone; present keys are splayed
on top before their value is read. -/
def LRUCache.get {K V : Type} (c : LRUCache K V) (key : K) :
    Option V × LRUCache K V :=
  match c.items key with
  | none => (none, c)
  | some pointer =>
    let c1 := c.splayOnTop pointer
    (c1.values pointer, c1)

/-- Slots visited when walking `n` steps along `forward` from `p`; the
spine of the recency list. -/
def spineFrom (forward : Nat → Nat) : Nat → Nat → List Nat
  | _, 0 => []
  | p, Nat.succ n => p :: spineFrom forward (forward p) n

/-- Pairs produced by walking `n` steps along `forward` from `p`, reading
`keys` and `values` at each slot, exactly as the `entries` iterator
does. -/
def entriesFrom {K V : Type} (keys : Nat → Option K) (values : Nat → Option V)
    (forward : Nat → Nat) : Nat → Nat → List (Option K × Option V)
  | _, 0 => []
  | p, Nat.succ n => (keys p, values p) :: entriesFrom keys values forward (forward p) n

/-- The full sequence yielded by `LRUCache.prototype.entries` (lines
165-191): `size` pairs walking from `head` along `forward`. -/
def LRUCache.entriesList {K V : Type} (c : LRUCache K V) :
    List (Option K × Option V) :=
  entriesFrom c.keys c.values c.forward c.head c.size

/-- The closure state of the iterator returned by
`LRUCache.prototype.entries`: the captured `l = size`, `keys`, `values`,
`forward` and the mutable locals `i` and `pointer`. -/
structure EntriesIterator (K V : Type) where
  i : Nat
  l : Nat
  pointer : Nat
  keys : Nat → Option K
  values : Nat → Option V
  forward : Nat → Nat

/-- `LRUCache.prototype.entries` (lines 165-191): captures `size`,
`head`, `keys`, `values` and `forward` at call time. -/
def LRUCache.entriesIter {K V : Type} (c : LRUCache K V) : EntriesIterator K V :=
  { i := 0, l := c.size, pointer := c.head
    keys := c.keys, values := c.values, forward := c.forward }

/-- One `next()` call on the entries iterator (the closure at lines
174-190): yields `none` once `i ≥ l`, otherwise the pair at `pointer`,
advancing `pointer` only while more pairs remain. -/
def EntriesIterator.next {K V : Type} (it : EntriesIterator K V) :
    Option (Option K × Option V) × EntriesIterator K V :=
  if it.i ≥ it.l then (none, it)
  else
    let key := it.keys it.pointer
    let value := it.values it.pointer
    let it2 := { it with i := it.i + 1 }
    let it3 := if it2.i < it2.l then { it2 with pointer := it2.forward it2.pointer } else it2
    (some (key, value), it3)

/-- Repeatedly call `next` at most `fuel` times, collecting the yielded
pairs until the iterator reports it is done. -/
def drainAux {K V : Type} : Nat → EntriesIterator K V → List (Option K × Option V)
  | 0, _ => []
  | Nat.succ n, it =>
    match it.next with
    | (none, _) => []
    | (some pair, it2) => pair :: drainAux n it2

/-- Fully consume the entries iterator (`fuel = l - i` suffices since
every yielded pair increments `i`). -/
def EntriesIterator.drain {K V : Type} (it : EntriesIterator K V) :
    List (Option K × Option V) :=
  drainAux (it.l - it.i) it

/-- Calling `entries()` and fully consuming the returned iterator, as a
state transformer on the cache.  The method body and the iterator closure
only read the cache fields, so the resulting cache state is the input
state. -/
def LRUCache.entriesCall {K V : Type} (c : LRUCache K V) :
    List (Option K × Option V) × LRUCache K V :=
  (c.entriesIter.drain, c)

/-- Calling `has(key)`, as a state transformer on the cache; the method
body only reads the key index. -/
def LRUCache.hasCall {K V : Type} (c : LRUCache K V) (key : K) :
    Bool × LRUCache K V :=
  ((c.items key).isSome, c)

/-- A public cache operation: `set(k, v)` or `get(k)`. -/
inductive Op (K V : Type)
  | set (k : K) (v : V)
  | get (k : K)

/-- Run one operation for its state effect. -/
def runOp {K V : Type} [DecidableEq K] (c : LRUCache K V) : Op K V → LRUCache K V
  | Op.set k v => c.set k v
  | Op.get k => (c.get k).2

/-- Run a sequence of operations from left to right. -/
def runOps {K V : Type} [DecidableEq K] (c : LRUCache K V) (ops : List (Op K V)) :
    LRUCache K V :=
  ops.foldl runOp c

/-- Specification-side bookkeeping: record a touch of key `k`, keeping the
most recently touched distinct keys first and at most `cap` of them. -/
def touchedUpdate {K : Type} [DecidableEq K] (cap : Nat) (L : List K) (k : K) :
    List K :=
  (k :: L.erase k).take cap

/-- Specification-side step (spec §8, first testable property): a `set`
always touches its key; a `get` touches its key exactly when the retrieval
succeeds, which holds when the key is among the currently resident keys
`L`. -/
def recentStep {K V : Type} [DecidableEq K] (cap : Nat) (L : List K) :
    Op K V → List K
  | Op.set k _ => touchedUpdate cap L k
  | Op.get k => if k ∈ L then touchedUpdate cap L k else L

/-- The `cap` most-recently-touched distinct keys after running `ops`
from an empty history, most recent first. -/
def recentKeys {K V : Type} [DecidableEq K] (cap : Nat) (ops : List (Op K V)) :
    List K :=
  ops.foldl (recentStep cap) []

/-! Basic update lemmas. -/

theorem upd_self {α : Type} (f : Nat → α) (i : Nat) (v : α) : upd f i v i = v := by
  simp [upd]

theorem upd_ne {α : Type} (f : Nat → α) (i j : Nat) (v : α) (h : j ≠ i) :
    upd f i v j = f j := by
  simp [upd, h]

theorem mapSet_self {K : Type} [DecidableEq K] (m : K → Option Nat) (k : K) (p : Nat) :
    mapSet m k p k = some p := by
  simp [mapSet]

theorem mapSet_ne {K : Type} [DecidableEq K] (m : K → Option Nat) (k j : K) (p : Nat)
    (h : j ≠ k) : mapSet m k p j = m j := by
  simp [mapSet, h]

theorem mapDelete_self {K : Type} [DecidableEq K] (m : K → Option Nat) (k : K) :
    mapDelete m k k = none := by
  simp [mapDelete]

theorem mapDelete_ne {K : Type} [DecidableEq K] (m : K → Option Nat) (k j : K)
    (h : j ≠ k) : mapDelete m k j = m j := by
  simp [mapDelete, h]

/-! Field equations for `splayOnTop`: which fields each branch touches. -/

theorem splay_eq_head {K V : Type} (c : LRUCache K V) (p : Nat) (h : c.head = p) :
    c.splayOnTop p = c := by
  simp [LRUCache.splayOnTop, h]

theorem splay_eq_tail {K V : Type} (c : LRUCache K V) (p : Nat) (hh : ¬ c.head = p)
    (ht : c.tail = p) :
    c.splayOnTop p =
      { c with
        tail := c.backward p
        forward := upd (upd c.forward (c.backward p) (c.forward p)) p c.head
        backward := upd c.backward c.head p
        head := p } := by
  simp [LRUCache.splayOnTop, hh, ht]

theorem splay_eq_mid {K V : Type} (c : LRUCache K V) (p : Nat) (hh : ¬ c.head = p)
    (ht : ¬ c.tail = p) (hfp : c.forward p ≠ p) :
    c.splayOnTop p =
      { c with
        backward := upd (upd c.backward (c.forward p) (c.backward p)) c.head p
        forward := upd (upd c.forward (c.backward p) (c.forward p)) p c.head
        head := p } := by
  simp only [LRUCache.splayOnTop, hh, ht, if_false, if_neg hh, if_neg ht]
  have : upd c.backward (c.forward p) (c.backward p) p = c.backward p :=
    upd_ne _ _ _ _ (Ne.symm hfp)
  simp [this]

theorem splay_size {K V : Type} (c : LRUCache K V) (p : Nat) :
    (c.splayOnTop p).size = c.size := by
  simp only [LRUCache.splayOnTop]
  split <;> [rfl; split <;> rfl]

theorem splay_capacity {K V : Type} (c : LRUCache K V) (p : Nat) :
    (c.splayOnTop p).capacity = c.capacity := by
  simp only [LRUCache.splayOnTop]
  split <;> [rfl; split <;> rfl]

theorem splay_keys {K V : Type} (c : LRUCache K V) (p : Nat) :
    (c.splayOnTop p).keys = c.keys := by
  simp only [LRUCache.splayOnTop]
  split <;> [rfl; split <;> rfl]

theorem splay_values {K V : Type} (c : LRUCache K V) (p : Nat) :
    (c.splayOnTop p).values = c.values := by
  simp only [LRUCache.splayOnTop]
  split <;> [rfl; split <;> rfl]

theorem splay_items {K V : Type} (c : LRUCache K V) (p : Nat) :
    (c.splayOnTop p).items = c.items := by
  simp only [LRUCache.splayOnTop]
  split <;> [rfl; split <;> rfl]

theorem splay_head {K V : Type} (c : LRUCache K V) (p : Nat) :
    (c.splayOnTop p).head = p := by
  simp only [LRUCache.splayOnTop]
  split <;> [assumption; split <;> rfl]

/-! Equations for `get`. -/

theorem get_absent {K V : Type} (c : LRUCache K V) (k : K) (h : c.items k = none) :
    c.get k = (none, c) := by
  simp [LRUCache.get, h]

theorem get_present {K V : Type} (c : LRUCache K V) (k : K) (p : Nat)
    (h : c.items k = some p) :
    c.get k = ((c.splayOnTop p).values p, c.splayOnTop p) := by
  simp [LRUCache.get, h]

/-! Equations for `set`. -/

theorem set_existing {K V : Type} [DecidableEq K] (c : LRUCache K V) (k : K) (v : V)
    (p : Nat) (h : c.items k = some p) :
    c.set k v =
      { c.splayOnTop p with
        values := upd (c.splayOnTop p).values p (some v) } := by
  simp [LRUCache.set, h]

/-! Chain utilities for the doubly-linked structure.  We record the
`forward` links along a slot list `L` as `Chain' (fun a b => forward a = b) L`
and the `backward` links as `Chain' (fun a b => backward b = a) L`. -/

theorem chainF_congr (f g : Nat → Nat) :
    ∀ L : List Nat, (∀ a ∈ L.dropLast, g a = f a) →
      List.Chain' (fun a b => f a = b) L → List.Chain' (fun a b => g a = b) L
  | [], _, _ => List.chain'_nil
  | [a], _, _ => List.chain'_singleton a
  | a :: b :: t, hg, hc => by
    rw [List.chain'_cons] at hc ⊢
    refine ⟨?_, chainF_congr f g (b :: t) (fun x hx => hg x ?_) hc.2⟩
    · rw [hg a (by simp [List.dropLast])]
      exact hc.1
    · simp only [List.dropLast_cons₂, List.mem_cons]
      right
      exact hx

theorem chainB_congr (f g : Nat → Nat) :
    ∀ L : List Nat, (∀ b ∈ L.tail, g b = f b) →
      List.Chain' (fun a b => f b = a) L → List.Chain' (fun a b => g b = a) L
  | [], _, _ => List.chain'_nil
  | [a], _, _ => List.chain'_singleton a
  | a :: b :: t, hg, hc => by
    rw [List.chain'_cons] at hc ⊢
    refine ⟨?_, chainB_congr f g (b :: t) (fun x hx => hg x ?_) hc.2⟩
    · rw [hg b (by simp)]
      exact hc.1
    · simp only [List.tail_cons] at hx ⊢
      exact List.mem_cons_of_mem b hx

/-- A `forward` chain starting at `p` determines the walk of the
`entries` iterator: walking `L.length` steps from `p` reproduces `L`. -/
theorem spine_of_chain (f : Nat → Nat) :
    ∀ (L : List Nat) (p : Nat), List.Chain' (fun a b => f a = b) L →
      L.head? = some p → spineFrom f p L.length = L
  | [], p, _, h => by simp at h
  | [a], p, _, h => by
    simp only [List.head?_cons, Option.some.injEq] at h
    subst h
    rfl
  | a :: b :: t, p, hc, h => by
    simp only [List.head?_cons, Option.some.injEq] at h
    rw [List.chain'_cons] at hc
    have ih := spine_of_chain f (b :: t) b hc.2 rfl
    rw [← h]
    show spineFrom f a ((b :: t).length + 1) = a :: b :: t
    rw [spineFrom, hc.1, ih]

theorem entriesFrom_eq_map {K V : Type} (keys : Nat → Option K)
    (values : Nat → Option V) (f : Nat → Nat) :
    ∀ (n : Nat) (p : Nat),
      entriesFrom keys values f p n =
        (spineFrom f p n).map (fun q => (keys q, values q))
  | 0, _ => rfl
  | Nat.succ n, p => by
    rw [entriesFrom, spineFrom, List.map_cons, entriesFrom_eq_map keys values f n]

theorem length_spineFrom (f : Nat → Nat) :
    ∀ (n : Nat) (p : Nat), (spineFrom f p n).length = n
  | 0, _ => rfl
  | Nat.succ n, p => by rw [spineFrom, List.length_cons, length_spineFrom f n]

theorem length_entriesList {K V : Type} (c : LRUCache K V) :
    c.entriesList.length = c.size := by
  rw [LRUCache.entriesList, entriesFrom_eq_map, List.length_map, length_spineFrom]

/-- Membership transfer for the reordered slot list `p :: L.erase p`. -/
theorem mem_cons_erase {α : Type} [DecidableEq α] {L : List α} {p : α}
    (hp : p ∈ L) (q : α) : q ∈ p :: L.erase p ↔ q ∈ L := by
  constructor
  · intro h
    rcases List.mem_cons.1 h with h | h
    · exact h ▸ hp
    · exact List.mem_of_mem_erase h
  · intro h
    by_cases hq : q = p
    · exact hq ▸ List.mem_cons_self p _
    · exact List.mem_cons_of_mem p ((List.mem_erase_of_ne hq).2 h)

theorem nodup_cons_erase {α : Type} [DecidableEq α] {L : List α} (p : α)
    (h : L.Nodup) : (p :: L.erase p).Nodup := by
  refine List.nodup_cons.2 ⟨h.not_mem_erase, h.erase p⟩

/-- Representation invariant of a cache state: `L` lists the live slots
from most recently used (the head) to least recently used (the tail).
The last three fields pin down the parts of the zero-initialised arrays
that `set` silently relies on when the cache holds at most one entry. -/
structure CacheRep {K V : Type} [DecidableEq K] (c : LRUCache K V) (L : List Nat) :
    Prop where
  len : L.length = c.size
  cap : c.size ≤ c.capacity
  nodup : L.Nodup
  bound : ∀ p ∈ L, p < c.size
  headOk : ∀ h, L.head? = some h → c.head = h
  tailOk : ∀ t, L.getLast? = some t → c.tail = t
  fwd : List.Chain' (fun a b => c.forward a = b) L
  bwd : List.Chain' (fun a b => c.backward b = a) L
  keyOf : ∀ p ∈ L, ∃ k, c.keys p = some k ∧ c.items k = some p
  itemsMem : ∀ k p, c.items k = some p → p ∈ L ∧ c.keys p = some k
  emptyZero : c.size = 0 → c.head = 0 ∧ c.tail = 0 ∧ c.backward 0 = 0
  soleBack : c.size = 1 → c.backward c.head = c.head

theorem rep_new {K V : Type} [DecidableEq K] (cap : Nat) :
    CacheRep (LRUCache.new K V cap) [] := by
  refine ⟨rfl, Nat.zero_le _, List.nodup_nil, ?_, ?_, ?_, List.chain'_nil,
    List.chain'_nil, ?_, ?_, ?_, ?_⟩
  · intro p hp; cases hp
  · intro h hh; cases hh
  · intro t ht; cases ht
  · intro p hp; cases hp
  · intro k p hkp; cases hkp
  · intro _; exact ⟨rfl, rfl, rfl⟩
  · intro h; cases h

/-- Keys are injective on live slots: two live slots with the same key
coincide, because the key index maps that key to a single slot. -/
theorem rep_key_inj {K V : Type} [DecidableEq K] {c : LRUCache K V} {L : List Nat}
    (h : CacheRep c L) {p q : Nat} {k : K} (hp : p ∈ L) (hq : q ∈ L)
    (hkp : c.keys p = some k) (hkq : c.keys q = some k) : p = q := by
  obtain ⟨kp, hkp', hip⟩ := h.keyOf p hp
  obtain ⟨kq, hkq', hiq⟩ := h.keyOf q hq
  rw [hkp'] at hkp
  rw [hkq'] at hkq
  cases hkp
  cases hkq
  rw [hip] at hiq
  exact Option.some.inj hiq

theorem chain_split3 {α : Type} (R : α → α → Prop) (F G : List α)
    (h : List.Chain' R (F ++ G)) :
    List.Chain' R F ∧ List.Chain' R G ∧
      ∀ x ∈ F.getLast?, ∀ y ∈ G.head?, R x y :=
  List.chain'_append.mp h

theorem ne_getLast_of_mem_dropLast {α : Type} {L : List α} (h : L.Nodup)
    (hne : L ≠ []) {a : α} (ha : a ∈ L.dropLast) : a ≠ L.getLast hne := by
  intro heq
  have h3 : (L.dropLast ++ [L.getLast hne]).Nodup := by
    rw [List.dropLast_concat_getLast hne]
    exact h
  exact List.disjoint_of_nodup_append h3 ha (by simp [heq])

/-- Splaying a live slot on top reorders the live-slot list to
`p :: L.erase p` and preserves the representation invariant. -/
theorem rep_splay {K V : Type} [DecidableEq K] {c : LRUCache K V} {L : List Nat}
    (h : CacheRep c L) {p : Nat} (hp : p ∈ L) :
    CacheRep (c.splayOnTop p) (p :: L.erase p) := by
  by_cases hh : c.head = p
  · rw [splay_eq_head c p hh]
    cases L with
    | nil => cases hp
    | cons a T =>
      have ha : c.head = a := h.headOk a rfl
      have hap : a = p := by rw [← ha, hh]
      subst hap
      rw [List.erase_cons_head]
      exact h
  · cases L with
    | nil => cases hp
    | cons h₀ T =>
      have hhead : c.head = h₀ := h.headOk h₀ rfl
      have hph : h₀ ≠ p := fun e => hh (hhead.trans e)
      have hpT : p ∈ T := by
        rcases List.mem_cons.1 hp with e | hT
        · exact absurd e.symm hph
        · exact hT
      obtain ⟨A, B, hAB⟩ := List.append_of_mem hpT
      subst hAB
      have hnd := h.nodup
      have h₀nm : h₀ ∉ A ++ p :: B := (List.nodup_cons.1 hnd).1
      have hndT : (A ++ p :: B).Nodup := (List.nodup_cons.1 hnd).2
      have hdisj := List.disjoint_of_nodup_append hndT
      have hpA : p ∉ A := fun hm => hdisj hm (List.mem_cons_self p B)
      have hndPB : (p :: B).Nodup := (List.nodup_append.1 hndT).2.1
      have hpB : p ∉ B := (List.nodup_cons.1 hndPB).1
      have hAnd : A.Nodup := (List.nodup_append.1 hndT).1
      have hBnd : B.Nodup := (List.nodup_cons.1 hndPB).2
      have h₀A : h₀ ∉ A := fun hm => h₀nm (List.mem_append_left _ hm)
      have h₀B : h₀ ∉ B := fun hm =>
        h₀nm (List.mem_append_right _ (List.mem_cons_of_mem _ hm))
      have hFnd : (h₀ :: A).Nodup := List.nodup_cons.2 ⟨h₀A, hAnd⟩
      have hpF : p ∉ h₀ :: A := by
        intro hm
        rcases List.mem_cons.1 hm with e | hmm
        · exact hph e.symm
        · exact hpA hmm
      have hFne : (h₀ :: A) ≠ [] := List.cons_ne_nil _ _
      have hdisjF : List.Disjoint (h₀ :: A) (p :: B) :=
        List.disjoint_of_nodup_append
          (show ((h₀ :: A) ++ p :: B).Nodup from hnd)
      have herase : (h₀ :: (A ++ p :: B)).erase p = h₀ :: (A ++ B) := by
        rw [List.erase_cons_tail (by simp [hph]),
          List.erase_append_right (p :: B) hpA, List.erase_cons_head]
      obtain ⟨hfF, hfPB, hfB⟩ :=
        chain_split3 _ (h₀ :: A) (p :: B)
          (show List.Chain' (fun a b => c.forward a = b) ((h₀ :: A) ++ p :: B)
            from h.fwd)
      obtain ⟨hbF, hbPB, hbB⟩ :=
        chain_split3 _ (h₀ :: A) (p :: B)
          (show List.Chain' (fun a b => c.backward b = a) ((h₀ :: A) ++ p :: B)
            from h.bwd)
      have hgl : (h₀ :: A).getLast? = some ((h₀ :: A).getLast hFne) :=
        List.getLast?_eq_getLast _ hFne
      have hu : c.backward p = (h₀ :: A).getLast hFne := by
        refine hbB _ ?_ p ?_
        · rw [hgl]; rfl
        · rfl
      have humem : (h₀ :: A).getLast hFne ∈ h₀ :: A := List.getLast_mem hFne
      have hmem : ∀ q : Nat,
          q ∈ p :: h₀ :: (A ++ B) ↔ q ∈ h₀ :: (A ++ p :: B) := by
        intro q
        simp only [List.mem_cons, List.mem_append]
        tauto
      have hnd' : (p :: h₀ :: (A ++ B)).Nodup := by
        refine List.nodup_cons.2 ⟨?_, List.nodup_cons.2 ⟨?_, ?_⟩⟩
        · intro hm
          rcases List.mem_cons.1 hm with e | hm2
          · exact hph e.symm
          · rcases List.mem_append.1 hm2 with ha | hb
            · exact hpA ha
            · exact hpB hb
        · intro hm
          rcases List.mem_append.1 hm with ha | hb
          · exact h₀A ha
          · exact h₀B hb
        · have hsub : List.Sublist (A ++ B) (A ++ p :: B) :=
            List.Sublist.append_left (List.sublist_cons_self p B) A
          exact hndT.sublist hsub
      have hlen2 : A.length + 2 ≤ c.size := by
        have := h.len
        simp only [List.length_cons, List.length_append] at this
        omega
      cases B with
      | nil =>
        have htail : c.tail = p :=
          h.tailOk p
            (show ((h₀ :: A) ++ [p]).getLast? = some p from List.getLast?_concat _)
        rw [splay_eq_tail c p hh htail, herase]
        refine ⟨?_, h.cap, ?_, ?_, ?_, ?_, ?_, ?_, ?_, ?_, ?_, ?_⟩
        · have := h.len
          simp only [List.length_cons, List.length_append] at this ⊢
          omega
        · exact hnd'
        · intro q hq
          exact h.bound q ((hmem q).1 hq)
        · intro x hx
          simp only [List.head?_cons, Option.some.injEq] at hx
          subst hx
          rfl
        · intro t ht
          rw [List.getLast?_cons_cons,
            show h₀ :: (A ++ ([] : List Nat)) = h₀ :: A by simp, hgl] at ht
          injection ht with ht
          subst ht
          exact hu
        · show List.Chain'
            (fun a b => upd (upd c.forward (c.backward p) (c.forward p)) p c.head a = b)
            (p :: h₀ :: (A ++ []))
          rw [List.append_nil]
          refine List.Chain'.cons' (chainF_congr c.forward _ (h₀ :: A) ?_ hfF) ?_
          · intro a ha
            have haF : a ∈ h₀ :: A := List.dropLast_subset _ ha
            have hap : a ≠ p := fun e => hpF (e ▸ haF)
            have hau : a ≠ c.backward p := by
              rw [hu]
              exact ne_getLast_of_mem_dropLast hFnd hFne ha
            rw [upd_ne _ _ _ _ hap, upd_ne _ _ _ _ hau]
          · intro y hy
            simp only [List.head?_cons, Option.mem_def, Option.some.injEq] at hy
            subst hy
            rw [upd_self, hhead]
        · show List.Chain'
            (fun a b => upd c.backward c.head p b = a)
            (p :: h₀ :: (A ++ []))
          rw [List.append_nil]
          refine List.Chain'.cons' (chainB_congr c.backward _ (h₀ :: A) ?_ hbF) ?_
          · intro b hb
            simp only [List.tail_cons] at hb
            have hbh : b ≠ c.head := by
              rw [hhead]
              exact fun e => h₀A (e ▸ hb)
            rw [upd_ne _ _ _ _ hbh]
          · intro y hy
            simp only [List.head?_cons, Option.mem_def, Option.some.injEq] at hy
            subst hy
            rw [hhead, upd_self]
        · intro q hq
          exact h.keyOf q ((hmem q).1 hq)
        · intro k q hkq
          have := h.itemsMem k q hkq
          exact ⟨(hmem q).2 this.1, this.2⟩
        · intro h0
          exfalso
          have h0' : c.size = 0 := h0
          omega
        · intro h1
          exfalso
          have h1' : c.size = 1 := h1
          omega
      | cons b₀ B₂ =>
        have hBne : (b₀ :: B₂) ≠ [] := List.cons_ne_nil _ _
        have hglB : (b₀ :: B₂).getLast? = some ((b₀ :: B₂).getLast hBne) :=
          List.getLast?_eq_getLast _ hBne
        have hgL : (h₀ :: (A ++ p :: b₀ :: B₂)).getLast? =
            some ((b₀ :: B₂).getLast hBne) := by
          rw [show h₀ :: (A ++ p :: b₀ :: B₂) =
              (h₀ :: (A ++ [p])) ++ (b₀ :: B₂) by simp,
            List.getLast?_append, hglB]
          rfl
        have htailv : c.tail = (b₀ :: B₂).getLast hBne := h.tailOk _ hgL
        have htailp : ¬ c.tail = p := by
          intro e0
          have he : (b₀ :: B₂).getLast hBne = p := by rw [← htailv, e0]
          exact hpB (he ▸ List.getLast_mem hBne)
        have hfpb : c.forward p = b₀ := (List.chain'_cons.1 hfPB).1
        have hfp : c.forward p ≠ p := by
          rw [hfpb]
          exact fun e => hpB (e ▸ List.mem_cons_self b₀ B₂)
        rw [splay_eq_mid c p hh htailp hfp, herase]
        refine ⟨?_, h.cap, ?_, ?_, ?_, ?_, ?_, ?_, ?_, ?_, ?_, ?_⟩
        · have := h.len
          simp only [List.length_cons, List.length_append] at this ⊢
          omega
        · exact hnd'
        · intro q hq
          exact h.bound q ((hmem q).1 hq)
        · intro x hx
          simp only [List.head?_cons, Option.some.injEq] at hx
          subst hx
          rfl
        · intro t ht
          rw [List.getLast?_cons_cons,
            show h₀ :: (A ++ b₀ :: B₂) = (h₀ :: A) ++ (b₀ :: B₂) from rfl,
            List.getLast?_append, hglB] at ht
          have ht' : some ((b₀ :: B₂).getLast hBne) = some t := ht
          injection ht' with ht'
          subst ht'
          exact htailv
        · show List.Chain'
            (fun a b => upd (upd c.forward (c.backward p) (c.forward p)) p c.head a = b)
            (p :: h₀ :: (A ++ b₀ :: B₂))
          refine List.Chain'.cons' ?_ ?_
          · show List.Chain' _ ((h₀ :: A) ++ (b₀ :: B₂))
            refine List.Chain'.append ?_ ?_ ?_
            · refine chainF_congr c.forward _ (h₀ :: A) ?_ hfF
              intro a ha
              have haF : a ∈ h₀ :: A := List.dropLast_subset _ ha
              have hap : a ≠ p := fun e => hpF (e ▸ haF)
              have hau : a ≠ c.backward p := by
                rw [hu]
                exact ne_getLast_of_mem_dropLast hFnd hFne ha
              rw [upd_ne _ _ _ _ hap, upd_ne _ _ _ _ hau]
            · refine chainF_congr c.forward _ (b₀ :: B₂) ?_ hfPB.tail
              intro a ha
              have haB : a ∈ b₀ :: B₂ := List.dropLast_subset _ ha
              have hap : a ≠ p := fun e => hpB (e ▸ haB)
              have hau : a ≠ c.backward p := by
                rw [hu]
                intro e
                exact hdisjF (e ▸ humem) (List.mem_cons_of_mem _ haB)
              rw [upd_ne _ _ _ _ hap, upd_ne _ _ _ _ hau]
            · intro x hx y hy
              rw [hgl] at hx
              have hx' : x = (h₀ :: A).getLast hFne := by
                cases hx
                rfl
              simp only [List.head?_cons, Option.mem_def, Option.some.injEq] at hy
              subst hx'
              subst hy
              have hxp : (h₀ :: A).getLast hFne ≠ p := fun e => hpF (e ▸ humem)
              rw [upd_ne _ _ _ _ hxp, hu, upd_self, hfpb]
          · intro y hy
            simp only [List.head?_cons, Option.mem_def, Option.some.injEq] at hy
            subst hy
            rw [upd_self, hhead]
        · show List.Chain'
            (fun a b => upd (upd c.backward (c.forward p) (c.backward p)) c.head p b = a)
            (p :: h₀ :: (A ++ b₀ :: B₂))
          refine List.Chain'.cons' ?_ ?_
          · show List.Chain' _ ((h₀ :: A) ++ (b₀ :: B₂))
            refine List.Chain'.append ?_ ?_ ?_
            · refine chainB_congr c.backward _ (h₀ :: A) ?_ hbF
              intro b hb
              simp only [List.tail_cons] at hb
              have hbh : b ≠ c.head := by
                rw [hhead]
                exact fun e => h₀A (e ▸ hb)
              have hbf : b ≠ c.forward p := by
                rw [hfpb]
                intro e
                exact hdisj (e ▸ hb)
                  (List.mem_cons_of_mem _ (List.mem_cons_self b₀ B₂))
              rw [upd_ne _ _ _ _ hbh, upd_ne _ _ _ _ hbf]
            · refine chainB_congr c.backward _ (b₀ :: B₂) ?_ hbPB.tail
              intro b hb
              simp only [List.tail_cons] at hb
              have hbh : b ≠ c.head := by
                rw [hhead]
                exact fun e => h₀B (e ▸ List.mem_cons_of_mem b₀ hb)
              have hbf : b ≠ c.forward p := by
                rw [hfpb]
                exact fun e => (List.nodup_cons.1 hBnd).1 (e ▸ hb)
              rw [upd_ne _ _ _ _ hbh, upd_ne _ _ _ _ hbf]
            · intro x hx y hy
              rw [hgl] at hx
              have hx' : x = (h₀ :: A).getLast hFne := by
                cases hx
                rfl
              simp only [List.head?_cons, Option.mem_def, Option.some.injEq] at hy
              subst hx'
              subst hy
              have hbh : b₀ ≠ c.head := by
                rw [hhead]
                exact fun e => h₀B (e ▸ List.mem_cons_self b₀ B₂)
              rw [upd_ne _ _ _ _ hbh, hfpb, upd_self, hu]
          · intro y hy
            simp only [List.head?_cons, Option.mem_def, Option.some.injEq] at hy
            subst hy
            rw [hhead, upd_self]
        · intro q hq
          exact h.keyOf q ((hmem q).1 hq)
        · intro k q hkq
          have := h.itemsMem k q hkq
          exact ⟨(hmem q).2 this.1, this.2⟩
        · intro h0
          exfalso
          have h0' : c.size = 0 := h0
          omega
        · intro h1
          exfalso
          have h1' : c.size = 1 := h1
          omega

/-! Resolved equations for the insertion branches of `set`. -/

theorem set_new_notfull_zero {K V : Type} [DecidableEq K] (c : LRUCache K V)
    (k : K) (v : V) (hk : c.items k = none) (hsz : c.size < c.capacity)
    (h0 : c.size = 0) :
    c.set k v =
      { c with
        size := c.size + 1
        items := mapSet c.items k c.size
        keys := upd c.keys c.size (some k)
        values := upd c.values c.size (some v) } := by
  simp [LRUCache.set, hk, hsz, show ¬ (c.size + 1 > 1) from by omega]

theorem set_new_notfull_pos {K V : Type} [DecidableEq K] (c : LRUCache K V)
    (k : K) (v : V) (hk : c.items k = none) (hsz : c.size < c.capacity)
    (hpos : 0 < c.size) :
    c.set k v =
      { c with
        size := c.size + 1
        items := mapSet c.items k c.size
        keys := upd c.keys c.size (some k)
        values := upd c.values c.size (some v)
        head := c.size
        backward := upd c.backward c.head c.size
        forward := upd c.forward c.size c.head } := by
  simp [LRUCache.set, hk, hsz, show c.size + 1 > 1 from by omega]

theorem set_new_full_small {K V : Type} [DecidableEq K] (c : LRUCache K V)
    (k : K) (v : V) (hk : c.items k = none) (hsz : ¬ c.size < c.capacity)
    (h1 : c.size ≤ 1) :
    c.set k v =
      { c with
        tail := c.backward c.tail
        items := mapSet (mapDeleteO c.items (c.keys c.tail)) k c.tail
        keys := upd c.keys c.tail (some k)
        values := upd c.values c.tail (some v) } := by
  simp [LRUCache.set, hk, hsz, show ¬ (c.size > 1) from by omega]

theorem set_new_full_big {K V : Type} [DecidableEq K] (c : LRUCache K V)
    (k : K) (v : V) (hk : c.items k = none) (hsz : ¬ c.size < c.capacity)
    (h2 : 1 < c.size) :
    c.set k v =
      { c with
        tail := c.backward c.tail
        items := mapSet (mapDeleteO c.items (c.keys c.tail)) k c.tail
        keys := upd c.keys c.tail (some k)
        values := upd c.values c.tail (some v)
        head := c.tail
        backward := upd c.backward c.head c.tail
        forward := upd c.forward c.tail c.head } := by
  simp [LRUCache.set, hk, hsz, h2]

/-! Field-preservation lemmas for whole operations. -/

theorem set_capacity {K V : Type} [DecidableEq K] (c : LRUCache K V) (k : K)
    (v : V) : (c.set k v).capacity = c.capacity := by
  unfold LRUCache.set
  cases c.items k with
  | none =>
    dsimp only
    split
    · split
      · rfl
      · rfl
    · split
      · rfl
      · rfl
  | some p => simp [splay_capacity]

theorem get_capacity {K V : Type} (c : LRUCache K V) (k : K) :
    (c.get k).2.capacity = c.capacity := by
  unfold LRUCache.get
  cases c.items k <;> simp [splay_capacity]

theorem runOp_capacity {K V : Type} [DecidableEq K] (c : LRUCache K V)
    (op : Op K V) : (runOp c op).capacity = c.capacity := by
  cases op with
  | set k v => exact set_capacity c k v
  | get k => exact get_capacity c k

theorem runOps_capacity {K V : Type} [DecidableEq K] :
    ∀ (ops : List (Op K V)) (c : LRUCache K V),
      (runOps c ops).capacity = c.capacity
  | [], _ => rfl
  | op :: ops, c => by
    show (runOps (runOp c op) ops).capacity = c.capacity
    rw [runOps_capacity ops (runOp c op), runOp_capacity]

/-- The representation invariant never mentions `values`, so updating the
value array preserves it. -/
theorem rep_values_congr {K V : Type} [DecidableEq K] {c : LRUCache K V}
    {L : List Nat} (h : CacheRep c L) (w : Nat → Option V) :
    CacheRep { c with values := w } L :=
  ⟨h.len, h.cap, h.nodup, h.bound, h.headOk, h.tailOk, h.fwd, h.bwd, h.keyOf,
    h.itemsMem, h.emptyZero, h.soleBack⟩

/-- Under the invariant, the `entries` sequence is exactly the live-slot
list decorated with each slot's key and value. -/
theorem rep_entries {K V : Type} [DecidableEq K] {c : LRUCache K V}
    {L : List Nat} (h : CacheRep c L) :
    c.entriesList = L.map (fun q => (c.keys q, c.values q)) := by
  rw [LRUCache.entriesList, entriesFrom_eq_map]
  cases L with
  | nil =>
    have h0 : c.size = 0 := by rw [← h.len]; rfl
    rw [h0]
    rfl
  | cons a T =>
    have ha : c.head = a := h.headOk a rfl
    have := spine_of_chain c.forward (a :: T) a h.fwd rfl
    rw [← h.len, ha, this]

/-- Effect of a successful `get` on the representation. -/
theorem rep_get_present {K V : Type} [DecidableEq K] {c : LRUCache K V}
    {L : List Nat} (h : CacheRep c L) {k : K} {p : Nat}
    (hk : c.items k = some p) :
    CacheRep (c.get k).2 (p :: L.erase p) := by
  rw [get_present c k p hk]
  exact rep_splay h (h.itemsMem k p hk).1

/-- Effect of `set` on an existing key on the representation. -/
theorem rep_set_existing {K V : Type} [DecidableEq K] {c : LRUCache K V}
    {L : List Nat} (h : CacheRep c L) {k : K} {p : Nat} (v : V)
    (hk : c.items k = some p) :
    CacheRep (c.set k v) (p :: L.erase p) := by
  rw [set_existing c k v p hk]
  exact rep_values_congr (rep_splay h (h.itemsMem k p hk).1) _

/-- Effect of `set` on a new key while the cache is not full: the next
unused slot `c.size` becomes the new head. -/
theorem rep_set_new {K V : Type} [DecidableEq K] {c : LRUCache K V}
    {L : List Nat} (h : CacheRep c L) {k : K} (v : V)
    (hk : c.items k = none) (hsz : c.size < c.capacity) :
    CacheRep (c.set k v) (c.size :: L) := by
  rcases Nat.eq_zero_or_pos c.size with h0 | hpos
  · obtain ⟨hh0, ht0, hb0⟩ := h.emptyZero h0
    have hL : L = [] := List.length_eq_zero.1 (by rw [h.len, h0])
    subst hL
    rw [set_new_notfull_zero c k v hk hsz h0]
    refine ⟨?_, ?_, by simp, ?_, ?_, ?_,
      List.chain'_singleton _, List.chain'_singleton _, ?_, ?_, ?_, ?_⟩
    · dsimp only
      simp [h0]
    · dsimp only
      omega
    · intro q hq
      dsimp only
      simp only [List.mem_singleton] at hq
      subst hq
      omega
    · intro x hx
      dsimp only
      simp only [List.head?_cons, Option.some.injEq] at hx
      subst hx
      exact hh0.trans h0.symm
    · intro x hx
      dsimp only
      simp only [List.getLast?_singleton, Option.some.injEq] at hx
      subst hx
      exact ht0.trans h0.symm
    · intro q hq
      dsimp only
      simp only [List.mem_singleton] at hq
      subst hq
      exact ⟨k, upd_self _ _ _, mapSet_self _ _ _⟩
    · intro k2 q hkq
      dsimp only at hkq ⊢
      by_cases hk2 : k2 = k
      · subst hk2
        rw [mapSet_self] at hkq
        injection hkq with hkq
        subst hkq
        exact ⟨List.mem_singleton_self _, upd_self _ _ _⟩
      · rw [mapSet_ne _ _ _ _ hk2] at hkq
        exact absurd (h.itemsMem k2 q hkq).1 (by simp)
    · intro hx
      have hx' : c.size + 1 = 0 := hx
      omega
    · intro _
      show c.backward c.head = c.head
      rw [hh0, hb0]
  · cases L with
    | nil =>
      exfalso
      have := h.len
      simp at this
      omega
    | cons a T =>
      have hhead : c.head = a := h.headOk a rfl
      have haT : a ∉ T := (List.nodup_cons.1 h.nodup).1
      have hsnotin : c.size ∉ a :: T := fun hm =>
        absurd (h.bound _ hm) (lt_irrefl _)
      rw [set_new_notfull_pos c k v hk hsz hpos]
      refine ⟨?_, ?_, List.nodup_cons.2 ⟨hsnotin, h.nodup⟩, ?_, ?_, ?_,
        ?_, ?_, ?_, ?_, ?_, ?_⟩
      · dsimp only
        have := h.len
        simp only [List.length_cons] at this ⊢
        omega
      · dsimp only
        omega
      · intro q hq
        dsimp only
        rcases List.mem_cons.1 hq with e | hq2
        · subst e; omega
        · have := h.bound q hq2; omega
      · intro x hx
        dsimp only
        simp only [List.head?_cons, Option.some.injEq] at hx
        subst hx
        rfl
      · intro t ht
        dsimp only
        rw [List.getLast?_cons_cons] at ht
        exact h.tailOk t ht
      · dsimp only
        refine List.Chain'.cons' (chainF_congr c.forward _ (a :: T) ?_ h.fwd) ?_
        · intro x hx
          have hxm : x ∈ a :: T := List.dropLast_subset _ hx
          exact upd_ne _ _ _ _ (fun e => hsnotin (e ▸ hxm))
        · intro y hy
          simp only [List.head?_cons, Option.mem_def, Option.some.injEq] at hy
          subst hy
          rw [upd_self, hhead]
      · dsimp only
        refine List.Chain'.cons' (chainB_congr c.backward _ (a :: T) ?_ h.bwd) ?_
        · intro x hx
          simp only [List.tail_cons] at hx
          refine upd_ne _ _ _ _ ?_
          rw [hhead]
          exact fun e => haT (e ▸ hx)
        · intro y hy
          simp only [List.head?_cons, Option.mem_def, Option.some.injEq] at hy
          subst hy
          rw [hhead, upd_self]
      · intro q hq
        dsimp only
        rcases List.mem_cons.1 hq with e | hq2
        · subst e
          exact ⟨k, upd_self _ _ _, mapSet_self _ _ _⟩
        · obtain ⟨kq, hkq, hiq⟩ := h.keyOf q hq2
          have hqs : q ≠ c.size := fun e =>
            absurd (h.bound q hq2) (by rw [e]; exact lt_irrefl _)
          have hkqk : kq ≠ k := fun e => by
            rw [e, hk] at hiq
            cases hiq
          exact ⟨kq, by rw [upd_ne _ _ _ _ hqs]; exact hkq,
            by rw [mapSet_ne _ _ _ _ hkqk]; exact hiq⟩
      · intro k2 q hkq
        dsimp only at hkq ⊢
        by_cases hk2 : k2 = k
        · subst hk2
          rw [mapSet_self] at hkq
          injection hkq with hkq
          subst hkq
          exact ⟨List.mem_cons_self _ _, upd_self _ _ _⟩
        · rw [mapSet_ne _ _ _ _ hk2] at hkq
          obtain ⟨hqL, hkq'⟩ := h.itemsMem k2 q hkq
          have hqs : q ≠ c.size := fun e =>
            absurd (h.bound q hqL) (by rw [e]; exact lt_irrefl _)
          exact ⟨List.mem_cons_of_mem _ hqL,
            by rw [upd_ne _ _ _ _ hqs]; exact hkq'⟩
      · intro hx
        have hx' : c.size + 1 = 0 := hx
        omega
      · intro hx
        have hx' : c.size + 1 = 1 := hx
        omega

/-- Effect of `set` on a new key when the cache is full: the tail slot is
evicted, reused, and moved to the head. -/
theorem rep_set_full {K V : Type} [DecidableEq K] {c : LRUCache K V}
    {L : List Nat} (h : CacheRep c L) {k : K} (v : V)
    (hk : c.items k = none) (hsz : ¬ c.size < c.capacity) (hpos : 0 < c.size) :
    CacheRep (c.set k v) (c.tail :: L.dropLast) := by
  rcases Nat.lt_or_ge 1 c.size with h2 | h1
  · -- at least two live entries
    cases L with
    | nil =>
      exfalso
      have := h.len
      simp at this
      omega
    | cons h₀ T =>
      rcases List.eq_nil_or_concat T with rfl | ⟨A, t, hT⟩
      · exfalso
        have := h.len
        simp at this
        omega
      · rw [List.concat_eq_append] at hT
        subst hT
        have hhead : c.head = h₀ := h.headOk h₀ rfl
        have ht : c.tail = t :=
          h.tailOk t (show ((h₀ :: A) ++ [t]).getLast? = some t from
            List.getLast?_concat _)
        have hdrop : (h₀ :: (A ++ [t])).dropLast = h₀ :: A := by
          rw [show h₀ :: (A ++ [t]) = (h₀ :: A) ++ [t] from rfl,
            List.dropLast_concat]
        have hnd := h.nodup
        have h₀nm : h₀ ∉ A ++ [t] := (List.nodup_cons.1 hnd).1
        have hndT : (A ++ [t]).Nodup := (List.nodup_cons.1 hnd).2
        have htA : t ∉ A := fun hm =>
          List.disjoint_of_nodup_append hndT hm (List.mem_singleton_self t)
        have hAnd : A.Nodup := (List.nodup_append.1 hndT).1
        have h₀A : h₀ ∉ A := fun hm => h₀nm (List.mem_append_left _ hm)
        have h₀t : h₀ ≠ t := fun e =>
          h₀nm (List.mem_append_right _ (e ▸ List.mem_singleton_self t))
        have hFnd : (h₀ :: A).Nodup := List.nodup_cons.2 ⟨h₀A, hAnd⟩
        have htF : t ∉ h₀ :: A := by
          intro hm
          rcases List.mem_cons.1 hm with e | hm2
          · exact h₀t e.symm
          · exact htA hm2
        have hFne : (h₀ :: A) ≠ [] := List.cons_ne_nil _ _
        obtain ⟨hfF, _, hfB⟩ :=
          chain_split3 _ (h₀ :: A) [t]
            (show List.Chain' (fun a b => c.forward a = b) ((h₀ :: A) ++ [t])
              from h.fwd)
        obtain ⟨hbF, _, hbB⟩ :=
          chain_split3 _ (h₀ :: A) [t]
            (show List.Chain' (fun a b => c.backward b = a) ((h₀ :: A) ++ [t])
              from h.bwd)
        have hgl : (h₀ :: A).getLast? = some ((h₀ :: A).getLast hFne) :=
          List.getLast?_eq_getLast _ hFne
        have hu : c.backward t = (h₀ :: A).getLast hFne := by
          refine hbB _ ?_ t ?_
          · rw [hgl]; rfl
          · rfl
        have hmemF : ∀ q, q ∈ h₀ :: A → q ∈ h₀ :: (A ++ [t]) := by
          intro q hq
          rcases List.mem_cons.1 hq with e | hq2
          · exact e ▸ List.mem_cons_self _ _
          · exact List.mem_cons_of_mem _ (List.mem_append_left _ hq2)
        obtain ⟨kt, hkt, hit⟩ := h.keyOf t
          (List.mem_cons_of_mem _ (List.mem_append_right _ (List.mem_singleton_self t)))
        have hktk : kt ≠ k := fun e => by
          rw [e, hk] at hit
          cases hit
        rw [set_new_full_big c k v hk hsz h2, hdrop, ht, hhead]
        refine ⟨?_, h.cap, List.nodup_cons.2 ⟨htF, hFnd⟩, ?_, ?_, ?_,
          ?_, ?_, ?_, ?_, ?_, ?_⟩
        · dsimp only
          have := h.len
          simp only [List.length_cons, List.length_append,
            List.length_nil] at this ⊢
          omega
        · intro q hq
          dsimp only
          rcases List.mem_cons.1 hq with e | hq2
          · rw [e]
            exact h.bound t (List.mem_cons_of_mem _
              (List.mem_append_right _ (List.mem_singleton_self t)))
          · exact h.bound q (hmemF q hq2)
        · intro x hx
          dsimp only
          simp only [List.head?_cons, Option.some.injEq] at hx
          subst hx
          rfl
        · intro x hx
          dsimp only
          rw [List.getLast?_cons_cons, hgl] at hx
          injection hx with hx
          subst hx
          exact hu
        · dsimp only
          refine List.Chain'.cons' (chainF_congr c.forward _ (h₀ :: A) ?_ hfF) ?_
          · intro x hx
            have hxm : x ∈ h₀ :: A := List.dropLast_subset _ hx
            exact upd_ne _ _ _ _ (fun e => htF (e ▸ hxm))
          · intro y hy
            simp only [List.head?_cons, Option.mem_def, Option.some.injEq] at hy
            subst hy
            rw [upd_self]
        · dsimp only
          refine List.Chain'.cons' (chainB_congr c.backward _ (h₀ :: A) ?_ hbF) ?_
          · intro x hx
            simp only [List.tail_cons] at hx
            exact upd_ne _ _ _ _ (fun e => h₀A (e ▸ hx))
          · intro y hy
            simp only [List.head?_cons, Option.mem_def, Option.some.injEq] at hy
            subst hy
            rw [upd_self]
        · intro q hq
          dsimp only
          rcases List.mem_cons.1 hq with e | hq2
          · subst e
            exact ⟨k, upd_self _ _ _, mapSet_self _ _ _⟩
          · obtain ⟨kq, hkq, hiq⟩ := h.keyOf q (hmemF q hq2)
            have hqt : q ≠ t := fun e => htF (e ▸ hq2)
            have hkqk : kq ≠ k := fun e => by
              rw [e, hk] at hiq
              cases hiq
            have hkqkt : kq ≠ kt := fun e => by
              rw [e, hit] at hiq
              injection hiq with hiq
              exact hqt hiq.symm
            refine ⟨kq, by rw [upd_ne _ _ _ _ hqt]; exact hkq, ?_⟩
            rw [mapSet_ne _ _ _ _ hkqk, hkt]
            show mapDelete c.items kt kq = some q
            rw [mapDelete_ne _ _ _ hkqkt]
            exact hiq
        · intro k2 q hkq
          dsimp only at hkq ⊢
          by_cases hk2 : k2 = k
          · subst hk2
            rw [mapSet_self] at hkq
            injection hkq with hkq
            subst hkq
            exact ⟨List.mem_cons_self _ _, upd_self _ _ _⟩
          · rw [mapSet_ne _ _ _ _ hk2, hkt] at hkq
            have hkq2 : mapDelete c.items kt k2 = some q := hkq
            by_cases hk3 : k2 = kt
            · rw [hk3, mapDelete_self] at hkq2
              cases hkq2
            · rw [mapDelete_ne _ _ _ hk3] at hkq2
              obtain ⟨hqL, hkq'⟩ := h.itemsMem k2 q hkq2
              have hqt : q ≠ t := fun e => by
                rw [e, hkt] at hkq'
                injection hkq' with hkq'
                exact hk3 hkq'.symm
              have hqF : q ∈ h₀ :: A := by
                rcases List.mem_cons.1 hqL with e | hq2
                · exact e ▸ List.mem_cons_self _ _
                · rcases List.mem_append.1 hq2 with ha | hb
                  · exact List.mem_cons_of_mem _ ha
                  · exact absurd (List.mem_singleton.1 hb) hqt
              exact ⟨List.mem_cons_of_mem _ hqF,
                by rw [upd_ne _ _ _ _ hqt]; exact hkq'⟩
        · intro hx
          have hx' : c.size = 0 := hx
          omega
        · intro hx
          have hx' : c.size = 1 := hx
          omega
  · -- exactly one live entry (capacity 1)
    have h1' : c.size = 1 := by omega
    obtain ⟨a, hL⟩ := List.length_eq_one.1 (by rw [h.len, h1'])
    subst hL
    have hhead : c.head = a := h.headOk a rfl
    have htail : c.tail = a := h.tailOk a rfl
    have hsb : c.backward a = a := by
      have := h.soleBack h1'
      rwa [hhead] at this
    obtain ⟨ka, hka, hia⟩ := h.keyOf a (List.mem_singleton_self a)
    have hkak : ka ≠ k := fun e => by
      rw [e, hk] at hia
      cases hia
    rw [set_new_full_small c k v hk hsz (by omega), htail]
    refine ⟨?_, h.cap, by simp, ?_, ?_, ?_,
      List.chain'_singleton _, List.chain'_singleton _, ?_, ?_, ?_, ?_⟩
    · dsimp only
      simp [h1']
    · intro q hq
      dsimp only
      have hq' : q ∈ [a] := hq
      simp only [List.mem_singleton] at hq'
      rw [hq']
      exact h.bound a (List.mem_singleton_self a)
    · intro x hx
      dsimp only
      have hx' : some a = some x := hx
      injection hx' with hx'
      subst hx'
      exact hhead
    · intro x hx
      dsimp only
      have hx' : some a = some x := hx
      injection hx' with hx'
      subst hx'
      exact hsb
    · intro q hq
      dsimp only
      have hq' : q ∈ [a] := hq
      simp only [List.mem_singleton] at hq'
      rw [hq']
      exact ⟨k, upd_self _ _ _, mapSet_self _ _ _⟩
    · intro k2 q hkq
      dsimp only at hkq ⊢
      by_cases hk2 : k2 = k
      · subst hk2
        rw [mapSet_self] at hkq
        injection hkq with hkq
        subst hkq
        exact ⟨List.mem_cons_self _ _, upd_self _ _ _⟩
      · rw [mapSet_ne _ _ _ _ hk2, hka] at hkq
        have hkq2 : mapDelete c.items ka k2 = some q := hkq
        by_cases hk3 : k2 = ka
        · rw [hk3, mapDelete_self] at hkq2
          cases hkq2
        · rw [mapDelete_ne _ _ _ hk3] at hkq2
          obtain ⟨hqL, hkq'⟩ := h.itemsMem k2 q hkq2
          have hqa : q = a := List.mem_singleton.1 hqL
          exfalso
          rw [hqa, hka] at hkq'
          injection hkq' with hkq'
          exact hk3 hkq'.symm
    · intro hx
      have hx' : c.size = 0 := hx
      omega
    · intro _
      show c.backward c.head = c.head
      rw [hhead, hsb]

/-! Relating the live-slot list to the abstract key list. -/

theorem erase_map_some {K : Type} [DecidableEq K] (f : Nat → Option K) (k : K)
    (p : Nat) :
    ∀ (L : List Nat) (M : List K), L.map f = M.map some → f p = some k →
      (∀ q ∈ L, f q = some k → q = p) →
      (L.erase p).map f = (M.erase k).map some
  | [], M, habs, _, _ => by
    cases M with
    | nil => rfl
    | cons m M2 => cases habs
  | q :: L2, M, habs, hfp, huniq => by
    cases M with
    | nil => cases habs
    | cons m M2 =>
      simp only [List.map_cons, List.cons.injEq] at habs
      obtain ⟨hqm, htl⟩ := habs
      by_cases hqp : q = p
      · have hmk : m = k := by
          rw [hqp, hfp] at hqm
          injection hqm with h
          exact h.symm
        rw [hqp, hmk, List.erase_cons_head, List.erase_cons_head]
        exact htl
      · have hmk : m ≠ k := fun e => by
          apply hqp
          exact huniq q (List.mem_cons_self _ _) (by rw [hqm, e])
        rw [List.erase_cons_tail (by simp [hqp]),
          List.erase_cons_tail (by simp [hmk]), List.map_cons, List.map_cons,
          hqm]
        rw [erase_map_some f k p L2 M2 htl hfp
          (fun x hx hfx => huniq x (List.mem_cons_of_mem _ hx) hfx)]

theorem abs_mem_of_items {K V : Type} [DecidableEq K] {c : LRUCache K V}
    {L : List Nat} {M : List K} (h : CacheRep c L)
    (habs : L.map c.keys = M.map some) {k : K} {p : Nat}
    (hk : c.items k = some p) : k ∈ M := by
  obtain ⟨hpL, hkp⟩ := h.itemsMem k p hk
  have hm : some k ∈ L.map c.keys := List.mem_map.2 ⟨p, hpL, hkp⟩
  rw [habs] at hm
  obtain ⟨x, hx, he⟩ := List.mem_map.1 hm
  injection he with he
  exact he ▸ hx

theorem abs_items_of_mem {K V : Type} [DecidableEq K] {c : LRUCache K V}
    {L : List Nat} {M : List K} (h : CacheRep c L)
    (habs : L.map c.keys = M.map some) {k : K} (hk : k ∈ M) :
    ∃ p, c.items k = some p := by
  have hm : some k ∈ M.map some := List.mem_map.2 ⟨k, hk, rfl⟩
  rw [← habs] at hm
  obtain ⟨p, hpL, hkp⟩ := List.mem_map.1 hm
  obtain ⟨kq, hkq, hiq⟩ := h.keyOf p hpL
  rw [hkq] at hkp
  injection hkp with hkp
  exact ⟨p, hkp ▸ hiq⟩

/-! Key-array equations for the insertion branches of `set`. -/

theorem set_keys_existing {K V : Type} [DecidableEq K] (c : LRUCache K V)
    (k : K) (v : V) (p : Nat) (hk : c.items k = some p) :
    (c.set k v).keys = c.keys := by
  rw [set_existing c k v p hk]
  dsimp only
  rw [splay_keys]

theorem set_keys_new_notfull {K V : Type} [DecidableEq K] (c : LRUCache K V)
    (k : K) (v : V) (hk : c.items k = none) (hsz : c.size < c.capacity) :
    (c.set k v).keys = upd c.keys c.size (some k) := by
  rcases Nat.eq_zero_or_pos c.size with h0 | hpos
  · rw [set_new_notfull_zero c k v hk hsz h0]
  · rw [set_new_notfull_pos c k v hk hsz hpos]

theorem set_keys_new_full {K V : Type} [DecidableEq K] (c : LRUCache K V)
    (k : K) (v : V) (hk : c.items k = none) (hsz : ¬ c.size < c.capacity) :
    (c.set k v).keys = upd c.keys c.tail (some k) := by
  rcases Nat.lt_or_ge 1 c.size with h2 | h1
  · rw [set_new_full_big c k v hk hsz h2]
  · rw [set_new_full_small c k v hk hsz h1]

/-- One-step simulation: running one operation preserves the invariant
and tracks the specification-side most-recently-touched key list. -/
theorem step_keys {K V : Type} [DecidableEq K] {c : LRUCache K V}
    {L : List Nat} {M : List K} (h : CacheRep c L)
    (habs : L.map c.keys = M.map some) (hcap : 0 < c.capacity) (op : Op K V) :
    ∃ L', CacheRep (runOp c op) L' ∧
      L'.map (runOp c op).keys = (recentStep c.capacity M op).map some := by
  have hMlen : M.length = c.size := by
    have hl := congrArg List.length habs
    simp only [List.length_map] at hl
    rw [← hl, h.len]
  cases op with
  | get k =>
    show ∃ L', CacheRep (c.get k).2 L' ∧
      (L'.map (c.get k).2.keys = (recentStep c.capacity M (Op.get k)).map some)
    cases hik : c.items k with
    | none =>
      have hkM : k ∉ M := fun hm => by
        obtain ⟨p, hp⟩ := abs_items_of_mem h habs hm
        rw [hik] at hp
        cases hp
      refine ⟨L, ?_, ?_⟩
      · rw [get_absent c k hik]
        exact h
      · rw [get_absent c k hik]
        show L.map c.keys = (recentStep c.capacity M (Op.get k)).map some
        rw [recentStep, if_neg hkM]
        exact habs
    | some p =>
      have hkM : k ∈ M := abs_mem_of_items h habs hik
      have hkp : c.keys p = some k := (h.itemsMem k p hik).2
      have hpL : p ∈ L := (h.itemsMem k p hik).1
      refine ⟨p :: L.erase p, rep_get_present h hik, ?_⟩
      have hkeys : (c.get k).2.keys = c.keys := by
        rw [get_present c k p hik, splay_keys]
      rw [hkeys]
      show (p :: L.erase p).map c.keys =
        (recentStep c.capacity M (Op.get k)).map some
      rw [recentStep, if_pos hkM, touchedUpdate]
      have hlen : (k :: M.erase k).length ≤ c.capacity := by
        rw [List.length_cons, List.length_erase_of_mem hkM]
        have hMpos : 0 < M.length := List.length_pos_of_mem hkM
        have := h.cap
        omega
      rw [List.take_of_length_le hlen, List.map_cons, List.map_cons, hkp,
        erase_map_some c.keys k p L M habs hkp
          (fun q hq hkq => rep_key_inj h hq hpL hkq hkp)]
  | set k v =>
    show ∃ L', CacheRep (c.set k v) L' ∧
      (L'.map (c.set k v).keys = (recentStep c.capacity M (Op.set k v)).map some)
    cases hik : c.items k with
    | some p =>
      have hkM : k ∈ M := abs_mem_of_items h habs hik
      have hkp : c.keys p = some k := (h.itemsMem k p hik).2
      have hpL : p ∈ L := (h.itemsMem k p hik).1
      refine ⟨p :: L.erase p, rep_set_existing h v hik, ?_⟩
      rw [set_keys_existing c k v p hik]
      show (p :: L.erase p).map c.keys =
        (recentStep c.capacity M (Op.set k v)).map some
      rw [recentStep, touchedUpdate]
      have hlen : (k :: M.erase k).length ≤ c.capacity := by
        rw [List.length_cons, List.length_erase_of_mem hkM]
        have hMpos : 0 < M.length := List.length_pos_of_mem hkM
        have := h.cap
        omega
      rw [List.take_of_length_le hlen, List.map_cons, List.map_cons, hkp,
        erase_map_some c.keys k p L M habs hkp
          (fun q hq hkq => rep_key_inj h hq hpL hkq hkp)]
    | none =>
      have hkM : k ∉ M := fun hm => by
        obtain ⟨p, hp⟩ := abs_items_of_mem h habs hm
        rw [hik] at hp
        cases hp
      have hMe : M.erase k = M := List.erase_of_not_mem hkM
      by_cases hsz : c.size < c.capacity
      · refine ⟨c.size :: L, rep_set_new h v hik hsz, ?_⟩
        rw [set_keys_new_notfull c k v hik hsz]
        show (c.size :: L).map (upd c.keys c.size (some k)) =
          (recentStep c.capacity M (Op.set k v)).map some
        rw [recentStep, touchedUpdate, hMe]
        have hlen : (k :: M).length ≤ c.capacity := by
          rw [List.length_cons]
          omega
        rw [List.take_of_length_le hlen, List.map_cons, List.map_cons, upd_self]
        congr 1
        rw [List.map_congr_left (fun q hq =>
          upd_ne c.keys c.size q (some k)
            (fun e => absurd (h.bound q hq) (by rw [e]; exact lt_irrefl _)))]
        exact habs
      · have hpos : 0 < c.size := by omega
        refine ⟨c.tail :: L.dropLast, rep_set_full h v hik hsz hpos, ?_⟩
        rw [set_keys_new_full c k v hik hsz]
        show (c.tail :: L.dropLast).map (upd c.keys c.tail (some k)) =
          (recentStep c.capacity M (Op.set k v)).map some
        rw [recentStep, touchedUpdate, hMe]
        have hfull : c.size = c.capacity := by
          have := h.cap
          omega
        have hLne : L ≠ [] := by
          intro e
          have hl := h.len
          rw [e] at hl
          simp at hl
          omega
        have htail : c.tail = L.getLast hLne :=
          h.tailOk _ (List.getLast?_eq_getLast _ hLne)
        have htd : c.tail ∉ L.dropLast := by
          rw [htail]
          intro hm
          exact ne_getLast_of_mem_dropLast h.nodup hLne hm rfl
        have hmape : (k :: M).take c.capacity = k :: M.dropLast := by
          rw [List.take_cons (by omega : 0 < c.capacity)]
          congr 1
          rw [List.dropLast_eq_take]
          congr 1
          omega
        rw [hmape, List.map_cons, List.map_cons, upd_self]
        congr 1
        rw [List.map_congr_left (fun q hq =>
          upd_ne c.keys c.tail q (some k) (fun e => htd (e ▸ hq)))]
        rw [List.map_dropLast, habs, ← List.map_dropLast]

/-- Multi-step simulation over a whole operation sequence. -/
theorem runOps_keys {K V : Type} [DecidableEq K] :
    ∀ (ops : List (Op K V)) (c : LRUCache K V) (L : List Nat) (M : List K),
      CacheRep c L → L.map c.keys = M.map some → 0 < c.capacity →
      ∃ L', CacheRep (runOps c ops) L' ∧
        L'.map (runOps c ops).keys =
          (ops.foldl (recentStep c.capacity) M).map some
  | [], _, L, _, h, habs, _ => ⟨L, h, habs⟩
  | op :: ops, c, L, M, h, habs, hcap => by
    obtain ⟨L1, h1, habs1⟩ := step_keys h habs hcap op
    have hc : (runOp c op).capacity = c.capacity := runOp_capacity c op
    obtain ⟨L', h', habs'⟩ :=
      runOps_keys ops (runOp c op) L1 (recentStep c.capacity M op) h1 habs1
        (by rw [hc]; exact hcap)
    refine ⟨L', h', ?_⟩
    rw [hc] at habs'
    exact habs'

/-- Every state reached from a fresh cache by `set`/`get` operations
satisfies the invariant, with resident keys tracking the
most-recently-touched key list. -/
theorem rep_reachable {K V : Type} [DecidableEq K] (cap : Nat)
    (hcap : 0 < cap) (ops : List (Op K V)) :
    ∃ L, CacheRep (runOps (LRUCache.new K V cap) ops) L ∧
      L.map (runOps (LRUCache.new K V cap) ops).keys =
        (recentKeys cap ops).map some :=
  runOps_keys ops (LRUCache.new K V cap) [] [] (rep_new cap) rfl hcap

/-! Construction-time behaviour (`LRUCache` constructor, lines 23-36).
The JavaScript `capacity` argument is an arbitrary number; we model it as
a rational, which is exact for every value the error taxonomy
distinguishes (sign, integrality, magnitude). -/

/-- Modelled from the spec: the Index-Width Selector (`getPointerArray`
in `utils/typed-arrays.js`), which the constructor calls but whose source
is not part of the files under verification.  Per spec §2, §4.1 and §7 it
chooses the narrowest unsigned width able to index `[0, capacity)` out of
the supported 8-, 16- and 32-bit widths, and a capacity exceeding the
maximum representable slot-width is a construction-time error. -/
def getPointerArrayWidth (capacity : ℚ) : Option Nat :=
  if capacity - 1 ≤ 255 then some 8
  else if capacity - 1 ≤ 65535 then some 16
  else if capacity - 1 ≤ 4294967295 then some 32
  else none

/-- JavaScript integer truncation toward zero (`ToIntegerOrInfinity`). -/
def jsTrunc (q : ℚ) : Int :=
  if q < 0 then -(Rat.floor (-q)) else Rat.floor q

/-- JavaScript typed-array allocation `new PointerArray(capacity)`
(`ToIndex` semantics): a negative truncated length throws a `RangeError`,
any other length is truncated and used. -/
def jsToIndex (q : ℚ) : Option Nat :=
  if jsTrunc q < 0 then none else some (jsTrunc q).toNat

/-- JavaScript `new Array(capacity)`: throws a `RangeError` unless the
requested length is an integer in the unsigned 32-bit range
(`ToUint32(length) === length`). -/
def jsArrayLengthOk (q : ℚ) : Bool :=
  decide (q.den = 1 ∧ 0 ≤ q ∧ q ≤ 4294967295)

/-- The constructor over an arbitrary numeric `capacity`: run the
index-width selector, allocate the two pointer arrays, then the two plain
arrays, then `clear()`.  Any failure aborts construction with no instance
created (`none`); success yields the fresh cache state. -/
def lruConstruct (K V : Type) (capacity : ℚ) : Option (LRUCache K V) :=
  if (getPointerArrayWidth capacity).isSome then
    if (jsToIndex capacity).isSome then
      if jsArrayLengthOk capacity then
        some (LRUCache.new K V (Rat.floor capacity).toNat)
      else none
    else none
  else none

theorem set_items_new_notfull {K V : Type} [DecidableEq K] (c : LRUCache K V)
    (k : K) (v : V) (hk : c.items k = none) (hsz : c.size < c.capacity) :
    (c.set k v).items = mapSet c.items k c.size := by
  rcases Nat.eq_zero_or_pos c.size with h0 | hpos
  · rw [set_new_notfull_zero c k v hk hsz h0]
  · rw [set_new_notfull_pos c k v hk hsz hpos]

theorem set_items_new_full {K V : Type} [DecidableEq K] (c : LRUCache K V)
    (k : K) (v : V) (hk : c.items k = none) (hsz : ¬ c.size < c.capacity) :
    (c.set k v).items = mapSet (mapDeleteO c.items (c.keys c.tail)) k c.tail := by
  rcases Nat.lt_or_ge 1 c.size with h2 | h1
  · rw [set_new_full_big c k v hk hsz h2]
  · rw [set_new_full_small c k v hk hsz h1]

theorem set_values_new_notfull {K V : Type} [DecidableEq K] (c : LRUCache K V)
    (k : K) (v : V) (hk : c.items k = none) (hsz : c.size < c.capacity) :
    (c.set k v).values = upd c.values c.size (some v) := by
  rcases Nat.eq_zero_or_pos c.size with h0 | hpos
  · rw [set_new_notfull_zero c k v hk hsz h0]
  · rw [set_new_notfull_pos c k v hk hsz hpos]

theorem set_values_new_full {K V : Type} [DecidableEq K] (c : LRUCache K V)
    (k : K) (v : V) (hk : c.items k = none) (hsz : ¬ c.size < c.capacity) :
    (c.set k v).values = upd c.values c.tail (some v) := by
  rcases Nat.lt_or_ge 1 c.size with h2 | h1
  · rw [set_new_full_big c k v hk hsz h2]
  · rw [set_new_full_small c k v hk hsz h1]

theorem set_size_new_full {K V : Type} [DecidableEq K] (c : LRUCache K V)
    (k : K) (v : V) (hk : c.items k = none) (hsz : ¬ c.size < c.capacity) :
    (c.set k v).size = c.size := by
  rcases Nat.lt_or_ge 1 c.size with h2 | h1
  · rw [set_new_full_big c k v hk hsz h2]
  · rw [set_new_full_small c k v hk hsz h1]

theorem set_tail_new_full {K V : Type} [DecidableEq K] (c : LRUCache K V)
    (k : K) (v : V) (hk : c.items k = none) (hsz : ¬ c.size < c.capacity) :
    (c.set k v).tail = c.backward c.tail := by
  rcases Nat.lt_or_ge 1 c.size with h2 | h1
  · rw [set_new_full_big c k v hk hsz h2]
  · rw [set_new_full_small c k v hk hsz h1]

/-! The entries iterator yields exactly the `entries` sequence. -/

theorem next_of_lt {K V : Type} (it : EntriesIterator K V) (h : it.i < it.l) :
    it.next = (some (it.keys it.pointer, it.values it.pointer),
      if it.i + 1 < it.l then
        { it with i := it.i + 1, pointer := it.forward it.pointer }
      else { it with i := it.i + 1 }) := by
  rw [EntriesIterator.next, if_neg (by omega)]

theorem drainAux_eq {K V : Type} :
    ∀ (n : Nat) (it : EntriesIterator K V), it.l - it.i = n →
      drainAux n it = entriesFrom it.keys it.values it.forward it.pointer n
  | 0, it, _ => rfl
  | Nat.succ n, it, hn => by
    have hlt : it.i < it.l := by omega
    rw [drainAux, next_of_lt it hlt]
    by_cases h2 : it.i + 1 < it.l
    · rw [if_pos h2]
      dsimp only
      rw [drainAux_eq n { it with i := it.i + 1, pointer := it.forward it.pointer }
        (by dsimp only; omega)]
      dsimp only
      rfl
    · rw [if_neg h2]
      dsimp only
      have hn0 : n = 0 := by omega
      subst hn0
      rfl

/-- Fully consuming the iterator returned by `entries()` yields exactly
the MRU-to-LRU sequence of the cache. -/
theorem drain_entriesIter {K V : Type} (c : LRUCache K V) :
    c.entriesIter.drain = c.entriesList := by
  show drainAux (c.size - 0) c.entriesIter = c.entriesList
  rw [Nat.sub_zero]
  exact drainAux_eq c.size c.entriesIter rfl

/-- C1: for every sequence of `set` and `get` operations on a cache
constructed with positive capacity, `size` never exceeds `capacity`, and
the set of resident keys (those for which `has` returns `true`) equals
the `capacity` most-recently-touched distinct keys, where touched means
inserted via `set` or successfully retrieved via `get` (`recentKeys` is
that specification-side list, most recent first). -/
theorem lru_size_and_resident_keys {K V : Type} [DecidableEq K] (cap : Nat)
    (hcap : 0 < cap) (ops : List (Op K V)) :
    (runOps (LRUCache.new K V cap) ops).size ≤ cap ∧
    ∀ k : K, ((runOps (LRUCache.new K V cap) ops).has k = true ↔
      k ∈ recentKeys cap ops) := by
  obtain ⟨L, hrep, habs⟩ := rep_reachable cap hcap ops
  have hcapeq : (runOps (LRUCache.new K V cap) ops).capacity = cap :=
    runOps_capacity ops (LRUCache.new K V cap)
  constructor
  · have := hrep.cap
    rw [hcapeq] at this
    exact this
  · intro k
    constructor
    · intro hk
      have hk' : ((runOps (LRUCache.new K V cap) ops).items k).isSome = true := hk
      obtain ⟨p, hp⟩ := Option.isSome_iff_exists.1 hk'
      exact abs_mem_of_items hrep habs hp
    · intro hk
      obtain ⟨p, hp⟩ := abs_items_of_mem hrep habs hk
      show ((runOps (LRUCache.new K V cap) ops).items k).isSome = true
      rw [hp]
      rfl

theorem lru_size_and_resident_keys_witness :
    (runOps (LRUCache.new Nat Nat 2)
      [Op.set 1 10, Op.set 2 20, Op.set 3 30, Op.get 2]).size ≤ 2 ∧
    ((runOps (LRUCache.new Nat Nat 2)
      [Op.set 1 10, Op.set 2 20, Op.set 3 30, Op.get 2]).has 1 = true ↔
      1 ∈ recentKeys 2
        [Op.set (1 : Nat) (10 : Nat), Op.set 2 20, Op.set 3 30, Op.get 2]) := by
  have h := lru_size_and_resident_keys 2 (by decide)
    [Op.set (1 : Nat) (10 : Nat), Op.set 2 20, Op.set 3 30, Op.get 2]
  exact ⟨h.1, h.2 1⟩

/-- C3: for every cache state, key `k` and value `v`, `set(k, v)` followed
immediately by `get(k)` returns `v`. -/
theorem lru_set_get_roundtrip {K V : Type} [DecidableEq K] (c : LRUCache K V)
    (k : K) (v : V) : ((c.set k v).get k).1 = some v := by
  cases hik : c.items k with
  | some p =>
    have hit : (c.set k v).items k = some p := by
      rw [set_existing c k v p hik]
      dsimp only
      rw [splay_items]
      exact hik
    rw [get_present _ k p hit, splay_values]
    rw [set_existing c k v p hik]
    dsimp only
    exact upd_self _ _ _
  | none =>
    by_cases hsz : c.size < c.capacity
    · have hit : (c.set k v).items k = some c.size := by
        rw [set_items_new_notfull c k v hik hsz]
        exact mapSet_self _ _ _
      rw [get_present _ k c.size hit, splay_values,
        set_values_new_notfull c k v hik hsz]
      exact upd_self _ _ _
    · have hit : (c.set k v).items k = some c.tail := by
        rw [set_items_new_full c k v hik hsz]
        exact mapSet_self _ _ _
      rw [get_present _ k c.tail hit, splay_values,
        set_values_new_full c k v hik hsz]
      exact upd_self _ _ _

/-- C5: `splayOnTop` applied to a live slot is a no-op when the slot is
already the head; otherwise it makes the slot the head without changing
`size` while preserving the relative order of the other live entries
(the live-slot list becomes `p :: L.erase p`); consequently `get` on the
current head key changes nothing, and a repeated `get` of any present
key changes nothing after the first call. -/
theorem lru_splay_properties {K V : Type} [DecidableEq K] (c : LRUCache K V)
    (p : Nat) :
    (c.head = p → c.splayOnTop p = c) ∧
    (c.splayOnTop p).size = c.size ∧
    (c.splayOnTop p).head = p ∧
    (∀ L, CacheRep c L → p ∈ L → CacheRep (c.splayOnTop p) (p :: L.erase p)) ∧
    (∀ k, c.items k = some c.head → (c.get k).2 = c) ∧
    (∀ k q, c.items k = some q → ((c.get k).2.get k).2 = (c.get k).2) := by
  refine ⟨splay_eq_head c p, splay_size c p, splay_head c p,
    fun L h hp => rep_splay h hp, ?_, ?_⟩
  · intro k hk
    rw [get_present c k c.head hk, splay_eq_head c c.head rfl]
  · intro k q hk
    have h2 : (c.get k).2.items k = some q := by
      rw [get_present c k q hk, splay_items]
      exact hk
    have hh : (c.get k).2.head = q := by
      rw [get_present c k q hk]
      exact splay_head c q
    rw [get_present _ k q h2, splay_eq_head _ q hh]

theorem lru_splay_properties_witness :
    (runOps (LRUCache.new Nat Nat 2) [Op.set 1 10]).splayOnTop 0 =
      runOps (LRUCache.new Nat Nat 2) [Op.set 1 10] ∧
    ((runOps (LRUCache.new Nat Nat 2) [Op.set 1 10]).get 1).2 =
      runOps (LRUCache.new Nat Nat 2) [Op.set 1 10] :=
  ⟨(lru_splay_properties (runOps (LRUCache.new Nat Nat 2) [Op.set 1 10]) 0).1
      (by decide),
    (lru_splay_properties (runOps (LRUCache.new Nat Nat 2) [Op.set 1 10])
        0).2.2.2.2.1 1 (by decide)⟩

/-- C7: for every cache state and key `k` not present, `get(k)` returns
the absent sentinel (`none`) rather than throwing, and leaves the entire
cache state unchanged, so the subsequent `entries()` order is as
before. -/
theorem lru_get_absent_total {K V : Type} (c : LRUCache K V) (k : K)
    (h : c.items k = none) :
    c.get k = (none, c) ∧ (c.get k).2.entriesList = c.entriesList := by
  rw [get_absent c k h]
  exact ⟨rfl, rfl⟩

theorem lru_get_absent_total_witness :
    (runOps (LRUCache.new Nat Nat 2) [Op.set 1 10]).get 7 =
      (none, runOps (LRUCache.new Nat Nat 2) [Op.set 1 10]) :=
  (lru_get_absent_total (runOps (LRUCache.new Nat Nat 2) [Op.set 1 10]) 7
    (by decide)).1

/-- C9: `clear()` sets `size`, `head` and `tail` to 0 and empties the key
index, while leaving the `keys`, `values`, `forward` and `backward`
arrays (and the capacity) untouched; afterwards `entries()` yields the
empty sequence regardless of the prior state. -/
theorem lru_clear_resets {K V : Type} (c : LRUCache K V) :
    c.clear.size = 0 ∧ c.clear.head = 0 ∧ c.clear.tail = 0 ∧
    (∀ k, c.clear.items k = none) ∧
    c.clear.keys = c.keys ∧ c.clear.values = c.values ∧
    c.clear.forward = c.forward ∧ c.clear.backward = c.backward ∧
    c.clear.capacity = c.capacity ∧
    c.clear.entriesList = [] :=
  ⟨rfl, rfl, rfl, fun _ => rfl, rfl, rfl, rfl, rfl, rfl, rfl⟩

/-- C10: `entries()` never mutates the cache: creating and fully
consuming the iterator returns the cache state unchanged, the sequence
obtained equals the MRU-to-LRU entry list of length `size`, and two
consecutive calls with no intervening mutation yield equal sequences. -/
theorem lru_entries_pure {K V : Type} (c : LRUCache K V) :
    c.entriesCall.2 = c ∧
    c.entriesCall.1 = c.entriesList ∧
    c.entriesCall.2.entriesCall.1 = c.entriesCall.1 ∧
    c.entriesCall.1.length = c.size := by
  refine ⟨rfl, drain_entriesIter c, rfl, ?_⟩
  show c.entriesIter.drain.length = c.size
  rw [drain_entriesIter c, length_entriesList]

/-- C2: when `size` equals `capacity` and `set` is called with a key not
currently present, the entry at the current tail is evicted: its key is
removed from the key index (`has` on it subsequently returns `false` and
it differs from the new key), its slot is reused for the new entry
(the key index maps the new key to the old tail slot, whose key cell now
holds the new key), the tail moves to `backward[tail]`, and the
operation never fails for exceeding capacity (`size` stays equal to
`capacity`). -/
theorem lru_eviction_at_capacity {K V : Type} [DecidableEq K]
    {c : LRUCache K V} {L : List Nat} (hrep : CacheRep c L) (k : K) (v : V)
    (hcap : 0 < c.capacity) (hfull : c.size = c.capacity)
    (hk : c.items k = none) :
    (∀ ke, c.keys c.tail = some ke →
      ke ≠ k ∧ (c.set k v).has ke = false) ∧
    (c.set k v).items k = some c.tail ∧
    (c.set k v).keys c.tail = some k ∧
    (c.set k v).size = c.size ∧
    (c.set k v).tail = c.backward c.tail ∧
    (c.set k v).size ≤ (c.set k v).capacity := by
  have hsz : ¬ c.size < c.capacity := by omega
  have hpos : 0 < c.size := by omega
  have hLne : L ≠ [] := by
    intro e
    have hl := hrep.len
    rw [e] at hl
    simp at hl
    omega
  have htail : c.tail = L.getLast hLne :=
    hrep.tailOk _ (List.getLast?_eq_getLast _ hLne)
  have htL : c.tail ∈ L := by
    rw [htail]
    exact List.getLast_mem hLne
  obtain ⟨kt, hkt, hit⟩ := hrep.keyOf c.tail htL
  refine ⟨?_, ?_, ?_, ?_, set_tail_new_full c k v hk hsz, ?_⟩
  · intro ke hke
    rw [hkt] at hke
    injection hke with hke
    subst hke
    have hne : kt ≠ k := fun e => by
      rw [e, hk] at hit
      cases hit
    refine ⟨hne, ?_⟩
    show ((c.set k v).items kt).isSome = false
    rw [set_items_new_full c k v hk hsz, mapSet_ne _ _ _ _ hne, hkt]
    show (mapDelete c.items kt kt).isSome = false
    rw [mapDelete_self]
    rfl
  · rw [set_items_new_full c k v hk hsz]
    exact mapSet_self _ _ _
  · rw [set_keys_new_full c k v hk hsz]
    exact upd_self _ _ _
  · exact set_size_new_full c k v hk hsz
  · rw [set_size_new_full c k v hk hsz, set_capacity c k v]
    exact hrep.cap

theorem lru_eviction_at_capacity_witness :
    ((runOps (LRUCache.new Nat Nat 1) [Op.set 10 100]).set 20 200).has 10 = false ∧
    ((runOps (LRUCache.new Nat Nat 1) [Op.set 10 100]).set 20 200).items 20 =
      some (runOps (LRUCache.new Nat Nat 1) [Op.set 10 100]).tail ∧
    ((runOps (LRUCache.new Nat Nat 1) [Op.set 10 100]).set 20 200).size =
      (runOps (LRUCache.new Nat Nat 1) [Op.set 10 100]).size := by
  obtain ⟨L, hrep, _⟩ := rep_reachable 1 (by decide) [Op.set (10 : Nat) (100 : Nat)]
  have h := lru_eviction_at_capacity hrep 20 200 (by decide) (by decide) (by decide)
  exact ⟨(h.1 10 (by decide)).2, h.2.1, h.2.2.2.1⟩

/-- C4: for every cache state and key `k` present in the cache, after
`get(k)` an immediately following `entries()` traversal yields
`(k, its value)` as the first pair — the value being exactly what the
`get` returned — and the traversal has length exactly `size`, walking
MRU to LRU. -/
theorem lru_get_entries_first {K V : Type} [DecidableEq K]
    {c : LRUCache K V} {L : List Nat} (hrep : CacheRep c L) {k : K} {p : Nat}
    (hk : c.items k = some p) :
    ((c.get k).2).entriesList.head? = some (some k, (c.get k).1) ∧
    ((c.get k).2).entriesList.length = (c.get k).2.size := by
  have hrep' := rep_get_present hrep hk
  constructor
  · rw [rep_entries hrep']
    simp only [List.map_cons, List.head?_cons]
    rw [get_present c k p hk, splay_keys, (hrep.itemsMem k p hk).2]
  · exact length_entriesList _

theorem lru_get_entries_first_witness :
    ((runOps (LRUCache.new Nat Nat 2) [Op.set 1 10, Op.set 2 20]).get
        1).2.entriesList.head? =
      some (some 1,
        ((runOps (LRUCache.new Nat Nat 2) [Op.set 1 10, Op.set 2 20]).get 1).1) ∧
    ((runOps (LRUCache.new Nat Nat 2) [Op.set 1 10, Op.set 2 20]).get
        1).2.entriesList.length =
      ((runOps (LRUCache.new Nat Nat 2) [Op.set 1 10, Op.set 2 20]).get 1).2.size := by
  obtain ⟨L, hrep, _⟩ := rep_reachable 2 (by decide)
    [Op.set (1 : Nat) (10 : Nat), Op.set 2 20]
  exact lru_get_entries_first hrep (show _ = some 0 by decide)

/-- C6 falsified as stated: `get(k)` does not always change the
subsequent `entries()` order when `k` is not the head key — an absent key
leaves the order untouched.  Concretely, on a capacity-2 cache holding
only key 1, `get 5` leaves `entries()` unchanged although 5 is not the
head key. -/
theorem lru_get_absent_entries_unchanged_cex :
    ((runOps (LRUCache.new Nat Nat 2) [Op.set 1 10]).get 5).2.entriesList =
      (runOps (LRUCache.new Nat Nat 2) [Op.set 1 10]).entriesList ∧
    (runOps (LRUCache.new Nat Nat 2) [Op.set 1 10]).keys
        (runOps (LRUCache.new Nat Nat 2) [Op.set 1 10]).head ≠ some 5 := by
  decide

/-- C6 (amended): `has(k)` leaves the cache state entirely unchanged, so
a subsequent `entries()` order is unaffected; whereas `get(k)` leaves the
subsequent `entries()` order unchanged exactly when `k` is absent or `k`
is already at the head slot — for any present non-head key it changes
the order. -/
theorem lru_has_pure_get_reorders {K V : Type} [DecidableEq K]
    {c : LRUCache K V} {L : List Nat} (hrep : CacheRep c L) (k : K) :
    ((c.hasCall k).2 = c ∧ (c.hasCall k).2.entriesList = c.entriesList) ∧
    (((c.get k).2.entriesList = c.entriesList) ↔
      (c.items k = none ∨ c.items k = some c.head)) := by
  refine ⟨⟨rfl, rfl⟩, ⟨?_, ?_⟩⟩
  · intro he
    cases hik : c.items k with
    | none => exact Or.inl rfl
    | some p =>
      by_cases hph : p = c.head
      · refine Or.inr ?_
        rw [← hph]
      · exfalso
        have hrep' := rep_get_present hrep hik
        have hpL : p ∈ L := (hrep.itemsMem k p hik).1
        cases L with
        | nil => cases hpL
        | cons h₀ T =>
          have hhead : c.head = h₀ := hrep.headOk h₀ rfl
          have hkeys : (c.get k).2.keys = c.keys := by
            rw [get_present c k p hik, splay_keys]
          have hvals : (c.get k).2.values = c.values := by
            rw [get_present c k p hik, splay_values]
          have he1 := rep_entries hrep'
          rw [hkeys, hvals, he, rep_entries hrep] at he1
          have hhd := congrArg List.head? he1
          simp only [List.map_cons, List.head?_cons, Option.some.injEq] at hhd
          have hkp : c.keys p = c.keys h₀ := (congrArg Prod.fst hhd).symm
          obtain ⟨kp, hkp', _⟩ := hrep.keyOf p hpL
          have hp0 : p = h₀ :=
            rep_key_inj hrep hpL (List.mem_cons_self h₀ T) hkp'
              (by rw [← hkp]; exact hkp')
          exact hph (hp0.trans hhead.symm)
  · intro h
    rcases h with h | h
    · rw [get_absent c k h]
    · rw [get_present c k c.head h, splay_eq_head c c.head rfl]

theorem lru_has_pure_get_reorders_witness :
    (((runOps (LRUCache.new Nat Nat 2) [Op.set 1 10]).get 5).2.entriesList =
      (runOps (LRUCache.new Nat Nat 2) [Op.set 1 10]).entriesList) ↔
    ((runOps (LRUCache.new Nat Nat 2) [Op.set 1 10]).items 5 = none ∨
      (runOps (LRUCache.new Nat Nat 2) [Op.set 1 10]).items 5 =
        some (runOps (LRUCache.new Nat Nat 2) [Op.set 1 10]).head) := by
  obtain ⟨L, hrep, _⟩ := rep_reachable 2 (by decide) [Op.set (1 : Nat) (10 : Nat)]
  exact (lru_has_pure_get_reorders hrep 5).2

/-! Construction outcomes. -/

theorem lruConstruct_isSome (K V : Type) (q : ℚ) (h1 : 0 ≤ q)
    (h2 : q.den = 1) (h3 : q ≤ 4294967295) :
    (lruConstruct K V q).isSome = true := by
  have hW : (getPointerArrayWidth q).isSome = true := by
    rw [getPointerArrayWidth]
    split_ifs with a b c2
    · rfl
    · rfl
    · rfl
    · exfalso
      apply c2
      linarith
  have hfl : (0 : ℤ) ≤ Rat.floor q := Rat.le_floor.2 (by exact_mod_cast h1)
  have hT : (jsToIndex q).isSome = true := by
    rw [jsToIndex, jsTrunc, if_neg (not_lt.2 h1), if_neg (not_lt.2 hfl)]
    rfl
  have hA : jsArrayLengthOk q = true := by
    rw [jsArrayLengthOk]
    simp only [decide_eq_true_eq]
    exact ⟨h2, h1, h3⟩
  rw [lruConstruct, if_pos hW, if_pos hT, if_pos hA]
  rfl

theorem lruConstruct_none_of_neg (K V : Type) (q : ℚ) (hq : q < 0) :
    lruConstruct K V q = none := by
  rw [lruConstruct]
  split_ifs with hW hT hA
  · exfalso
    rw [jsArrayLengthOk] at hA
    simp only [decide_eq_true_eq] at hA
    linarith [hA.2.1]
  · rfl
  · rfl
  · rfl

theorem lruConstruct_none_of_nonint (K V : Type) (q : ℚ) (hq : q.den ≠ 1) :
    lruConstruct K V q = none := by
  rw [lruConstruct]
  split_ifs with hW hT hA
  · exfalso
    rw [jsArrayLengthOk] at hA
    simp only [decide_eq_true_eq] at hA
    exact hq hA.1
  · rfl
  · rfl
  · rfl

theorem lruConstruct_none_of_large (K V : Type) (q : ℚ)
    (hq : (4294967296 : ℚ) ≤ q) : lruConstruct K V q = none := by
  rw [lruConstruct]
  split_ifs with hW hT hA
  · exfalso
    rw [jsArrayLengthOk] at hA
    simp only [decide_eq_true_eq] at hA
    linarith [hA.2.2]
  · rfl
  · rfl
  · rfl

theorem rat_int_lt_bound {q : ℚ} (h2 : q.den = 1)
    (h3 : q < 4294967296) : q ≤ 4294967295 := by
  have hqe : ((q.num : ℚ)) = q := Rat.coe_int_num_of_den_eq_one h2
  have h4 : (q.num : ℚ) < ((4294967296 : ℤ) : ℚ) := by
    rw [hqe]
    exact_mod_cast h3
  have h5 : q.num < 4294967296 := by exact_mod_cast h4
  have h6 : q.num ≤ 4294967295 := by omega
  calc q = ((q.num : ℚ)) := hqe.symm
    _ ≤ ((4294967295 : ℤ) : ℚ) := by exact_mod_cast h6
    _ = 4294967295 := by norm_num

/-- C8 falsified as stated: constructing a cache with the non-positive
capacity 0 does not fail — an instance is created. -/
theorem lru_construct_zero_succeeds : (lruConstruct Nat Nat 0).isSome = true :=
  lruConstruct_isSome Nat Nat 0 (le_refl 0) Rat.den_zero (by norm_num)

/-- C8 (amended): construction fails exactly for a negative, non-integer,
or too-large (at least `2^32`) capacity, with no instance created; every
integer capacity in `[0, 2^32)` — including the degenerate capacity 0 —
yields an instance. -/
theorem lru_construct_invalid_iff (K V : Type) (q : ℚ) :
    lruConstruct K V q = none ↔
      (q < 0 ∨ q.den ≠ 1 ∨ (4294967296 : ℚ) ≤ q) := by
  constructor
  · intro h
    by_contra hc
    push_neg at hc
    obtain ⟨h1, h2, h3⟩ := hc
    have h4 : q ≤ 4294967295 := rat_int_lt_bound h2 h3
    have h5 := lruConstruct_isSome K V q h1 h2 h4
    rw [h] at h5
    exact Bool.noConfusion h5
  · intro h
    rcases h with h | h | h
    · exact lruConstruct_none_of_neg K V q h
    · exact lruConstruct_none_of_nonint K V q h
    · exact lruConstruct_none_of_large K V q h
